import Mathlib

/-!
Shallow embedding of the `Freeze` bump-arena allocator (`src/lib.rs`).

Raw memory is modelled as a total function from addresses to byte values.
The arena state (`BumpAlloc`) mirrors the Rust struct field by field, and
each method of `LiquidVecRef` / `BumpAllocRef` is translated to a Lean
function on that state.  Pointer arithmetic on `*mut u8` becomes `Nat`
address arithmetic; operations that panic in Rust (out-of-bounds slice
indexing, the mmap failure paths) are modelled with `Option` / `Except`.
-/

namespace Freeze

/-- Flat byte memory: address to byte value. -/
abbrev Mem := Nat → Nat

/-- Store one byte at address `a`. -/
def writeByte (m : Mem) (a v : Nat) : Mem := fun x => if x = a then v else m x

/-- Store the bytes `bs` at consecutive addresses starting at `a`
(the effect of `std::ptr::copy(bs.as_ptr(), a, bs.len())`, whose source
list is already a snapshot, matching memmove semantics). -/
def writeBytes (m : Mem) (a : Nat) : List Nat → Mem
  | [] => m
  | b :: bs => writeBytes (writeByte m a b) (a + 1) bs

/-- Read `n` consecutive bytes starting at address `a`. -/
def readBytes (m : Mem) (a : Nat) : Nat → List Nat
  | 0 => []
  | n + 1 => m a :: readBytes m (a + 1) n

theorem writeByte_eq (m : Mem) (a v : Nat) : writeByte m a v a = v := by
  simp [writeByte]

theorem writeByte_ne (m : Mem) (a v x : Nat) (h : x ≠ a) : writeByte m a v x = m x := by
  simp [writeByte, h]

theorem readBytes_length (m : Mem) (a n : Nat) : (readBytes m a n).length = n := by
  induction n generalizing a with
  | zero => rfl
  | succ n ih => simp [readBytes, ih]

theorem readBytes_congr (m m' : Mem) (a n : Nat) (h : ∀ k, k < n → m' (a + k) = m (a + k)) :
    readBytes m' a n = readBytes m a n := by
  induction n generalizing a with
  | zero => rfl
  | succ n ih =>
      have h0 : m' a = m a := by simpa using h 0 (Nat.succ_pos n)
      have ht : readBytes m' (a + 1) n = readBytes m (a + 1) n := by
        apply ih
        intro k hk
        have hx := h (k + 1) (by omega)
        have e : a + (k + 1) = a + 1 + k := by omega
        rwa [e] at hx
      simp [readBytes, h0, ht]

theorem readBytes_add (m : Mem) (a n k : Nat) :
    readBytes m a (n + k) = readBytes m a n ++ readBytes m (a + n) k := by
  induction n generalizing a with
  | zero => simp [readBytes]
  | succ n ih =>
      have e1 : n + 1 + k = (n + k) + 1 := by omega
      have e2 : a + (n + 1) = (a + 1) + n := by omega
      rw [e1, e2]
      simp only [readBytes, List.cons_append]
      rw [ih (a + 1)]

theorem readBytes_snoc (m : Mem) (a n : Nat) :
    readBytes m a (n + 1) = readBytes m a n ++ [m (a + n)] := by
  simpa [readBytes] using readBytes_add m a n 1

theorem writeBytes_lt (m : Mem) (a : Nat) (bs : List Nat) (x : Nat) (h : x < a) :
    writeBytes m a bs x = m x := by
  induction bs generalizing m a with
  | nil => rfl
  | cons b bs ih =>
      simp only [writeBytes]
      calc writeBytes (writeByte m a b) (a + 1) bs x
          = writeByte m a b x := ih _ _ (by omega)
        _ = m x := writeByte_ne _ _ _ _ (by omega)

theorem writeBytes_ge (m : Mem) (a : Nat) (bs : List Nat) (x : Nat)
    (h : a + bs.length ≤ x) : writeBytes m a bs x = m x := by
  induction bs generalizing m a with
  | nil => rfl
  | cons b bs ih =>
      simp only [List.length_cons] at h
      simp only [writeBytes]
      calc writeBytes (writeByte m a b) (a + 1) bs x
          = writeByte m a b x := ih _ _ (by omega)
        _ = m x := writeByte_ne _ _ _ _ (by omega)

theorem readBytes_writeBytes (m : Mem) (a : Nat) (bs : List Nat) :
    readBytes (writeBytes m a bs) a bs.length = bs := by
  induction bs generalizing m a with
  | nil => rfl
  | cons b bs ih =>
      simp only [writeBytes, List.length_cons, readBytes]
      rw [writeBytes_lt (writeByte m a b) (a + 1) bs a (by omega), writeByte_eq]
      rw [ih]

theorem readBytes_take (m : Mem) (a k j : Nat) :
    (readBytes m a (k + j)).take k = readBytes m a k := by
  rw [readBytes_add]
  rw [List.take_left' (readBytes_length m a k)]

theorem readBytes_drop (m : Mem) (a k j : Nat) :
    (readBytes m a (k + j)).drop k = readBytes m (a + k) j := by
  rw [readBytes_add]
  rw [List.drop_left' (readBytes_length m a k)]

theorem readBytes_dropLast (m : Mem) (a n : Nat) :
    (readBytes m a n).dropLast = readBytes m a (n - 1) := by
  cases n with
  | zero => rfl
  | succ k => rw [readBytes_snoc]; simp

theorem readBytes_getLast (m : Mem) (a n : Nat) (h : n ≠ 0) :
    (readBytes m a n).getLast? = some (m (a + (n - 1))) := by
  cases n with
  | zero => omega
  | succ k => rw [readBytes_snoc]; simp

theorem readBytes_writeByte_set (m : Mem) (a v n k : Nat) (h : k < n) :
    readBytes (writeByte m (a + k) v) a n = (readBytes m a n).set k v := by
  induction n generalizing a k with
  | zero => omega
  | succ n ih =>
      cases k with
      | zero =>
          simp only [readBytes, List.set]
          have h1 : writeByte m (a + 0) v a = v := by simpa using writeByte_eq m a v
          have h2 : readBytes (writeByte m (a + 0) v) (a + 1) n = readBytes m (a + 1) n := by
            apply readBytes_congr
            intro i hi
            exact writeByte_ne _ _ _ _ (by omega)
          rw [h1, h2]
      | succ k =>
          simp only [readBytes, List.set]
          have h1 : writeByte m (a + (k + 1)) v a = m a :=
            writeByte_ne _ _ _ _ (by omega)
          have h2 : readBytes (writeByte m (a + (k + 1)) v) (a + 1) n
              = (readBytes m (a + 1) n).set k v := by
            have e : a + (k + 1) = (a + 1) + k := by omega
            rw [e]
            exact ih (a + 1) k (by omega)
          rw [h1, h2]

/-- The `BumpAlloc` struct of the source, with pointers as `Nat` addresses:
`address_space: usize`, `data_base: *mut u8`, `top_base: *mut u8`, `top_size: usize`. -/
structure BumpAlloc where
  address_space : Nat
  data_base : Nat
  top_base : Nat
  top_size : Nat
deriving DecidableEq

/-- An arena together with the raw memory it writes into.  A `LiquidVecRef`
holds `&mut BumpAlloc`, so every vector operation acts on this state. -/
structure St where
  alloc : BumpAlloc
  mem : Mem

/-- The bytes of the in-progress buffer:
`std::slice::from_raw_parts(self.alloc.top_base, self.alloc.top_size)`. -/
def bufContents (s : St) : List Nat := readBytes s.mem s.alloc.top_base s.alloc.top_size

/-- `LiquidVecRef::extend_one`: write `item` at `top_base + top_size`, bump `top_size`. -/
def extend_one (s : St) (item : Nat) : St :=
  { alloc := { s.alloc with top_size := s.alloc.top_size + 1 },
    mem := writeByte s.mem (s.alloc.top_base + s.alloc.top_size) item }

/-- `LiquidVecRef::extend_from_slice`: `std::ptr::copy` of `items` to
`top_base + top_size`, then `top_size += items.len()`. -/
def extend_from_slice (s : St) (items : List Nat) : St :=
  { alloc := { s.alloc with top_size := s.alloc.top_size + items.length },
    mem := writeBytes s.mem (s.alloc.top_base + s.alloc.top_size) items }

/-- `LiquidVecRef::extend_from_within`: index the current buffer slice by the
range `i..j` (a Rust slice-index panic on an out-of-range or inverted range is
modelled as `none`), then `extend_from_slice` that sub-slice. -/
def extend_from_within (s : St) (i j : Nat) : Option St :=
  if i ≤ j ∧ j ≤ s.alloc.top_size then
    some (extend_from_slice s (((bufContents s).drop i).take (j - i)))
  else none

/-- `LiquidVecRef::pop`: `None` on an empty buffer, otherwise decrement
`top_size` and read the byte at `top_base + top_size`. -/
def pop (s : St) : Option Nat × St :=
  if s.alloc.top_size = 0 then (none, s)
  else
    (some (s.mem (s.alloc.top_base + (s.alloc.top_size - 1))),
     { s with alloc := { s.alloc with top_size := s.alloc.top_size - 1 } })

/-- `LiquidVecRef::truncate`: early return when `len > top_size`, else set `top_size`. -/
def truncate (s : St) (len : Nat) : St :=
  if len > s.alloc.top_size then s
  else { s with alloc := { s.alloc with top_size := len } }

/-- An in-place store through `IndexMut` / `deref_mut` on the in-progress buffer:
writing index `k` of the `top_size`-long slice (out of bounds panics: `none`). -/
def writeAt (s : St) (k v : Nat) : Option St :=
  if k < s.alloc.top_size then
    some { s with mem := writeByte s.mem (s.alloc.top_base + k) v }
  else none

/-- `LiquidVecRef::freeze`: return the slice `(top_base, top_size)` and
advance `top_base` past it, resetting `top_size` to 0. -/
def freeze (s : St) : (Nat × Nat) × St :=
  ((s.alloc.top_base, s.alloc.top_size),
   { s with alloc := { s.alloc with
       top_base := s.alloc.top_base + s.alloc.top_size, top_size := 0 } })

/-- `BumpAllocRef::data_size`: `top_base.offset_from(data_base) as usize + top_size`
(the method reads the fields through the handle's `ptr`). -/
def data_size (a : BumpAlloc) : Nat := (a.top_base - a.data_base) + a.top_size

/-- `size_of::<BumpAlloc>()`: four 8-byte fields (one `usize`, two pointers,
one `usize`) on the 64-bit targets the crate is written for. -/
def bumpAllocStructSize : Nat := 32

/-- `BumpAllocRef::dangerous`:
`(self.data_size() + size_of::<BumpAlloc>()) > (*self.ptr).address_space / 2`. -/
def dangerous (a : BumpAlloc) : Bool :=
  decide (data_size a + bumpAllocStructSize > a.address_space / 2)

/-- The `BumpAllocRef` handle: `ptr` is the raw address at which the
`BumpAlloc` struct itself is stored (set to `self as *mut BumpAlloc` by
`BumpAlloc::to_ref`), `alloc` is the pointee. -/
structure BumpAllocRef where
  ptr : Nat
  alloc : BumpAlloc
deriving DecidableEq

/-- The munmap call performed by `impl Drop for BumpAllocRef`:
`libc::munmap(self.ptr as _, (*self.ptr).address_space)`.
Returns the (address, length) pair passed to the OS release operation. -/
def drop (r : BumpAllocRef) : Nat × Nat := (r.ptr, r.alloc.address_space)

/-- `BumpAlloc::new_with_address_space`: `mmap` is the external OS call, so its
return value `res` is a parameter; the two panicking paths (`todo!()` after a
failed mmap, and the nullptr check) are modelled as `Except.error`, an
unrecoverable outcome with no retryable-failure value. -/
def new_with_address_space (bits : Nat) (res : Int) : Except String BumpAlloc :=
  if res = -1 then Except.error "not yet implemented"
  else if res = 0 then Except.error "mmap returned nullptr"
  else Except.ok { address_space := 2 ^ bits, data_base := res.toNat,
                   top_base := res.toNat, top_size := 0 }

theorem bufContents_extend_one (s : St) (b : Nat) :
    bufContents (extend_one s b) = bufContents s ++ [b] := by
  show readBytes (writeByte s.mem (s.alloc.top_base + s.alloc.top_size) b)
      s.alloc.top_base (s.alloc.top_size + 1) = _
  rw [readBytes_snoc]
  have h1 : readBytes (writeByte s.mem (s.alloc.top_base + s.alloc.top_size) b)
      s.alloc.top_base s.alloc.top_size = bufContents s := by
    apply readBytes_congr
    intro k hk
    exact writeByte_ne _ _ _ _ (by omega)
  rw [h1, writeByte_eq]

theorem bufContents_extend_from_slice (s : St) (bs : List Nat) :
    bufContents (extend_from_slice s bs) = bufContents s ++ bs := by
  show readBytes (writeBytes s.mem (s.alloc.top_base + s.alloc.top_size) bs)
      s.alloc.top_base (s.alloc.top_size + bs.length) = _
  rw [readBytes_add]
  have h1 : readBytes (writeBytes s.mem (s.alloc.top_base + s.alloc.top_size) bs)
      s.alloc.top_base s.alloc.top_size = bufContents s := by
    apply readBytes_congr
    intro k hk
    exact writeBytes_lt _ _ _ _ (by omega)
  rw [h1, readBytes_writeBytes]

theorem bufContents_length (s : St) : (bufContents s).length = s.alloc.top_size :=
  readBytes_length _ _ _

/-- The operations a client can perform through `LiquidVecRef`
(in-place stores through `IndexMut`/`DerefMut` included). -/
inductive Op where
  | extendOne : Nat → Op
  | extendFromSlice : List Nat → Op
  | extendFromWithin : Nat → Nat → Op
  | pop : Op
  | truncate : Nat → Op
  | writeAt : Nat → Nat → Op
  | freeze : Op
deriving DecidableEq

/-- A frozen buffer: the slice `freeze` returned (`base`, `size`) together with
the bytes it held at the moment of the freeze. -/
structure Frozen where
  base : Nat
  size : Nat
  bytes : List Nat
deriving DecidableEq

/-- One client operation on the arena state, also recording the slice a
`freeze` returns; `none` models a Rust panic (out-of-bounds slice index). -/
def stepT (s : St) (fs : List Frozen) : Op → Option (St × List Frozen)
  | Op.extendOne b => some (extend_one s b, fs)
  | Op.extendFromSlice bs => some (extend_from_slice s bs, fs)
  | Op.extendFromWithin i j => (extend_from_within s i j).map (fun s1 => (s1, fs))
  | Op.pop => some ((pop s).2, fs)
  | Op.truncate n => some (truncate s n, fs)
  | Op.writeAt k v => (writeAt s k v).map (fun s1 => (s1, fs))
  | Op.freeze =>
      some ((freeze s).2,
        fs ++ [{ base := s.alloc.top_base, size := s.alloc.top_size, bytes := bufContents s }])

/-- Run a list of client operations from a state, collecting frozen slices. -/
def run (s : St) (fs : List Frozen) : List Op → Option (St × List Frozen)
  | [] => some (s, fs)
  | op :: ops =>
      match stepT s fs op with
      | some (s', fs') => run s' fs' ops
      | none => none

/-- The frozen slices `[f₁, f₂, …]` tile the region `[a, b)` contiguously:
`f₁` begins at `a`, each next slice begins where the previous one ended,
and the last one ends at `b`. -/
def isChain : Nat → List Frozen → Nat → Prop
  | a, [], b => a = b
  | a, f :: fs, b => f.base = a ∧ isChain (a + f.size) fs b

/-- Reachability invariant tying the collected frozen slices to the arena:
they tile `[data_base, top_base)`, record sizes consistently, and the memory
still holds each one's bytes. -/
def Inv (s : St) (fs : List Frozen) : Prop :=
  isChain s.alloc.data_base fs s.alloc.top_base ∧
  (∀ f ∈ fs, f.bytes.length = f.size) ∧
  (∀ f ∈ fs, readBytes s.mem f.base f.size = f.bytes)

theorem isChain_le (a : Nat) (fs : List Frozen) (b : Nat) (h : isChain a fs b) : a ≤ b := by
  induction fs generalizing a with
  | nil => simp only [isChain] at h; omega
  | cons f fs ih =>
      simp only [isChain] at h
      exact le_trans (Nat.le_add_right a f.size) (ih _ h.2)

theorem isChain_mem (a : Nat) (fs : List Frozen) (b : Nat) (h : isChain a fs b) :
    ∀ f ∈ fs, a ≤ f.base ∧ f.base + f.size ≤ b := by
  induction fs generalizing a with
  | nil => intro f hf; simp at hf
  | cons g fs ih =>
      simp only [isChain] at h
      intro f hf
      rcases List.mem_cons.mp hf with h1 | h1
      · subst h1
        have hb := isChain_le _ _ _ h.2
        omega
      · have := ih _ h.2 f h1
        omega

theorem isChain_append_one (a b n : Nat) (l : List Nat) (fs : List Frozen)
    (h : isChain a fs b) :
    isChain a (fs ++ [{ base := b, size := n, bytes := l }]) (b + n) := by
  induction fs generalizing a with
  | nil =>
      simp only [isChain] at h
      simp only [List.nil_append, isChain]
      omega
  | cons f fs ih =>
      simp only [isChain] at h
      simp only [List.cons_append, isChain]
      exact ⟨h.1, ih _ h.2⟩

theorem isChain_sum (a : Nat) (fs : List Frozen) (b : Nat) (h : isChain a fs b) :
    a + (fs.map fun f => f.size).sum = b := by
  induction fs generalizing a with
  | nil => simp only [isChain] at h; simpa using h
  | cons f fs ih =>
      simp only [isChain] at h
      have := ih _ h.2
      simp only [List.map_cons, List.sum_cons]
      omega

theorem isChain_pairwise (a : Nat) (fs : List Frozen) (b : Nat) (h : isChain a fs b) :
    fs.Pairwise (fun f g => f.base + f.size ≤ g.base) := by
  induction fs generalizing a with
  | nil => exact List.Pairwise.nil
  | cons f fs ih =>
      simp only [isChain] at h
      have h1 := h.1
      refine List.Pairwise.cons ?_ (ih _ h.2)
      intro g hg
      have h2 := (isChain_mem _ _ _ h.2 g hg).1
      omega

theorem pop_snd_alloc (s : St) :
    (pop s).2.alloc.data_base = s.alloc.data_base ∧
    (pop s).2.alloc.top_base = s.alloc.top_base ∧
    (pop s).2.mem = s.mem := by
  unfold pop
  split <;> exact ⟨rfl, rfl, rfl⟩

theorem truncate_alloc (s : St) (n : Nat) :
    (truncate s n).alloc.data_base = s.alloc.data_base ∧
    (truncate s n).alloc.top_base = s.alloc.top_base ∧
    (truncate s n).mem = s.mem := by
  unfold truncate
  split <;> exact ⟨rfl, rfl, rfl⟩

/-- `Inv` only depends on memory below `top_base`; any step that keeps
`data_base` and `top_base` and writes only at or above `top_base` keeps it. -/
theorem Inv_of_mem_eq (s s' : St) (fs : List Frozen)
    (hb : s'.alloc.data_base = s.alloc.data_base)
    (ht : s'.alloc.top_base = s.alloc.top_base)
    (hm : ∀ x, x < s.alloc.top_base → s'.mem x = s.mem x)
    (hinv : Inv s fs) : Inv s' fs := by
  obtain ⟨hc, hl, hr⟩ := hinv
  refine ⟨by rw [hb, ht]; exact hc, hl, ?_⟩
  intro f hf
  have hfb := isChain_mem _ _ _ hc f hf
  have he : readBytes s'.mem f.base f.size = readBytes s.mem f.base f.size := by
    apply readBytes_congr
    intro k hk
    exact hm _ (by omega)
  rw [he]
  exact hr f hf

theorem stepT_inv (s : St) (fs : List Frozen) (op : Op) (s' : St) (fs' : List Frozen)
    (h : stepT s fs op = some (s', fs')) (hinv : Inv s fs) : Inv s' fs' := by
  cases op with
  | extendOne b =>
      simp only [stepT, Option.some.injEq, Prod.mk.injEq] at h
      obtain ⟨h1, h2⟩ := h
      subst h1; subst h2
      refine Inv_of_mem_eq s _ _ ?_ ?_ ?_ hinv
      · rfl
      · rfl
      · intro x hx
        exact writeByte_ne _ _ _ _ (by omega)
  | extendFromSlice bs =>
      simp only [stepT, Option.some.injEq, Prod.mk.injEq] at h
      obtain ⟨h1, h2⟩ := h
      subst h1; subst h2
      refine Inv_of_mem_eq s _ _ ?_ ?_ ?_ hinv
      · rfl
      · rfl
      · intro x hx
        exact writeBytes_lt _ _ _ _ (by omega)
  | extendFromWithin i j =>
      simp only [stepT, extend_from_within] at h
      split at h
      · simp only [Option.map_some', Option.some.injEq, Prod.mk.injEq] at h
        obtain ⟨h1, h2⟩ := h
        subst h1; subst h2
        refine Inv_of_mem_eq s _ _ ?_ ?_ ?_ hinv
        · rfl
        · rfl
        · intro x hx
          exact writeBytes_lt _ _ _ _ (by omega)
      · simp at h
  | pop =>
      simp only [stepT, Option.some.injEq, Prod.mk.injEq] at h
      obtain ⟨h1, h2⟩ := h
      subst h1; subst h2
      have hp := pop_snd_alloc s
      exact Inv_of_mem_eq s _ _ hp.1 hp.2.1 (fun x _ => by rw [hp.2.2]) hinv
  | truncate n =>
      simp only [stepT, Option.some.injEq, Prod.mk.injEq] at h
      obtain ⟨h1, h2⟩ := h
      subst h1; subst h2
      have hp := truncate_alloc s n
      exact Inv_of_mem_eq s _ _ hp.1 hp.2.1 (fun x _ => by rw [hp.2.2]) hinv
  | writeAt k v =>
      simp only [stepT, writeAt] at h
      split at h
      · simp only [Option.map_some', Option.some.injEq, Prod.mk.injEq] at h
        obtain ⟨h1, h2⟩ := h
        subst h1; subst h2
        refine Inv_of_mem_eq s _ _ ?_ ?_ ?_ hinv
        · rfl
        · rfl
        · intro x hx
          exact writeByte_ne _ _ _ _ (by omega)
      · simp at h
  | freeze =>
      simp only [stepT, Option.some.injEq, Prod.mk.injEq] at h
      obtain ⟨h1, h2⟩ := h
      subst h1; subst h2
      obtain ⟨hc, hl, hr⟩ := hinv
      refine ⟨isChain_append_one _ _ _ _ _ hc, ?_, ?_⟩
      · intro f hf
        rcases List.mem_append.mp hf with h1 | h1
        · exact hl f h1
        · simp only [List.mem_singleton] at h1
          subst h1
          exact bufContents_length s
      · intro f hf
        rcases List.mem_append.mp hf with h1 | h1
        · exact hr f h1
        · simp only [List.mem_singleton] at h1
          subst h1
          rfl

theorem run_inv (ops : List Op) (s : St) (fs : List Frozen) (s' : St) (fs' : List Frozen)
    (h : run s fs ops = some (s', fs')) (hinv : Inv s fs) : Inv s' fs' := by
  induction ops generalizing s fs with
  | nil =>
      simp only [run, Option.some.injEq, Prod.mk.injEq] at h
      obtain ⟨h1, h2⟩ := h
      subst h1; subst h2
      exact hinv
  | cons op ops ih =>
      simp only [run] at h
      rcases hst : stepT s fs op with _ | ⟨s1, fs1⟩
      · rw [hst] at h; simp at h
      · rw [hst] at h
        exact ih _ _ h (stepT_inv _ _ _ _ _ hst hinv)

theorem stepT_data_base (s : St) (fs : List Frozen) (op : Op) (s' : St) (fs' : List Frozen)
    (h : stepT s fs op = some (s', fs')) : s'.alloc.data_base = s.alloc.data_base := by
  cases op with
  | extendOne b =>
      simp only [stepT, Option.some.injEq, Prod.mk.injEq] at h
      rw [← h.1]; rfl
  | extendFromSlice bs =>
      simp only [stepT, Option.some.injEq, Prod.mk.injEq] at h
      rw [← h.1]; rfl
  | extendFromWithin i j =>
      simp only [stepT, extend_from_within] at h
      split at h
      · simp only [Option.map_some', Option.some.injEq, Prod.mk.injEq] at h
        rw [← h.1]; rfl
      · simp at h
  | pop =>
      simp only [stepT, Option.some.injEq, Prod.mk.injEq] at h
      rw [← h.1]
      exact (pop_snd_alloc s).1
  | truncate n =>
      simp only [stepT, Option.some.injEq, Prod.mk.injEq] at h
      rw [← h.1]
      exact (truncate_alloc s n).1
  | writeAt k v =>
      simp only [stepT, writeAt] at h
      split at h
      · simp only [Option.map_some', Option.some.injEq, Prod.mk.injEq] at h
        rw [← h.1]
      · simp at h
  | freeze =>
      simp only [stepT, Option.some.injEq, Prod.mk.injEq] at h
      rw [← h.1]; rfl

theorem run_data_base (ops : List Op) (s : St) (fs : List Frozen)
    (s' : St) (fs' : List Frozen) (h : run s fs ops = some (s', fs')) :
    s'.alloc.data_base = s.alloc.data_base := by
  induction ops generalizing s fs with
  | nil =>
      simp only [run, Option.some.injEq, Prod.mk.injEq] at h
      rw [← h.1]
  | cons op ops ih =>
      simp only [run] at h
      rcases hst : stepT s fs op with _ | ⟨s1, fs1⟩
      · rw [hst] at h; simp at h
      · rw [hst] at h
        rw [ih _ _ h, stepT_data_base _ _ _ _ _ hst]

/-- Spec-side semantics of one in-progress-buffer operation, written from the
spec's words (§4.3): the buffer is an abstract byte list; append extends it,
`append_from_within [i, j)` appends a snapshot of the range as it exists
before the call, `pop` drops the last byte, `truncate` shrinks only,
an in-place store replaces one byte, and the view admits no operation after
`freeze`.  Used only as the comparison side of the refinement claim. -/
def specBufStep (l : List Nat) : Op → Option (List Nat)
  | Op.extendOne b => some (l ++ [b])
  | Op.extendFromSlice bs => some (l ++ bs)
  | Op.extendFromWithin i j =>
      if i ≤ j ∧ j ≤ l.length then some (l ++ (l.drop i).take (j - i)) else none
  | Op.pop => some l.dropLast
  | Op.truncate n => some (if n ≤ l.length then l.take n else l)
  | Op.writeAt k v => if k < l.length then some (l.set k v) else none
  | Op.freeze => none

/-- Spec-side run of a sequence of buffer operations. -/
def specRun (l : List Nat) : List Op → Option (List Nat)
  | [] => some l
  | op :: ops =>
      match specBufStep l op with
      | some l' => specRun l' ops
      | none => none

/-- One non-freeze step of the code is simulated by the spec-side list
semantics on the in-progress buffer's bytes. -/
theorem specBufStep_sim (s : St) (fs : List Frozen) (op : Op) (s' : St) (fs' : List Frozen)
    (hop : op ≠ Op.freeze) (h : stepT s fs op = some (s', fs')) :
    specBufStep (bufContents s) op = some (bufContents s') := by
  cases op with
  | extendOne b =>
      simp only [stepT, Option.some.injEq, Prod.mk.injEq] at h
      rw [← h.1, specBufStep, bufContents_extend_one]
  | extendFromSlice bs =>
      simp only [stepT, Option.some.injEq, Prod.mk.injEq] at h
      rw [← h.1, specBufStep, bufContents_extend_from_slice]
  | extendFromWithin i j =>
      simp only [stepT, extend_from_within] at h
      split at h
      · rename_i hc
        simp only [Option.map_some', Option.some.injEq, Prod.mk.injEq] at h
        rw [← h.1, specBufStep, bufContents_length, if_pos hc,
          bufContents_extend_from_slice]
      · simp at h
  | pop =>
      simp only [stepT, Option.some.injEq, Prod.mk.injEq] at h
      rw [← h.1, specBufStep]
      by_cases h0 : s.alloc.top_size = 0
      · unfold pop
        rw [if_pos h0]
        unfold bufContents
        rw [h0]
        rfl
      · unfold pop
        rw [if_neg h0]
        unfold bufContents
        simp only
        rw [readBytes_dropLast]
  | truncate n =>
      simp only [stepT, Option.some.injEq, Prod.mk.injEq] at h
      rw [← h.1, specBufStep, bufContents_length]
      by_cases hc : n ≤ s.alloc.top_size
      · rw [if_pos hc]
        unfold truncate
        rw [if_neg (by omega)]
        unfold bufContents
        simp only
        have e : s.alloc.top_size = n + (s.alloc.top_size - n) := by omega
        conv_lhs => rw [e]
        rw [readBytes_take]
      · rw [if_neg hc]
        unfold truncate
        rw [if_pos (by omega)]
  | writeAt k v =>
      simp only [stepT, writeAt] at h
      split at h
      · rename_i hc
        simp only [Option.map_some', Option.some.injEq, Prod.mk.injEq] at h
        rw [← h.1, specBufStep, bufContents_length, if_pos hc]
        unfold bufContents
        simp only
        rw [readBytes_writeByte_set _ _ _ _ _ hc]
      · simp at h
  | freeze => exact absurd rfl hop

/-- A freeze-free run of the code is simulated by the spec-side semantics. -/
theorem specRun_sim (ops : List Op) (s : St) (fs : List Frozen) (s' : St) (fs' : List Frozen)
    (hops : ∀ op ∈ ops, op ≠ Op.freeze) (h : run s fs ops = some (s', fs')) :
    specRun (bufContents s) ops = some (bufContents s') := by
  induction ops generalizing s fs with
  | nil =>
      simp only [run, Option.some.injEq, Prod.mk.injEq] at h
      rw [specRun, h.1]
  | cons op ops ih =>
      simp only [run] at h
      rcases hst : stepT s fs op with _ | ⟨s1, fs1⟩
      · rw [hst] at h; simp at h
      · rw [hst] at h
        have hsim := specBufStep_sim s fs op s1 fs1 (hops op (List.mem_cons_self op ops)) hst
        rw [specRun, hsim]
        exact ih _ _ (fun o ho => hops o (List.mem_cons_of_mem _ ho)) h

theorem sum_bytes_eq_sum_size (fs : List Frozen) (h : ∀ f ∈ fs, f.bytes.length = f.size) :
    (fs.map fun f => f.bytes.length).sum = (fs.map fun f => f.size).sum := by
  induction fs with
  | nil => rfl
  | cons f fs ih =>
      simp only [List.map_cons, List.sum_cons]
      rw [h f (List.mem_cons_self f fs), ih (fun g hg => h g (List.mem_cons_of_mem _ hg))]

theorem Inv_init (s : St) (h0 : s.alloc.top_base = s.alloc.data_base) : Inv s [] := by
  refine ⟨?_, ?_, ?_⟩
  · simp only [isChain]
    omega
  · intro f hf; simp at hf
  · intro f hf; simp at hf

/-- C1: from a freshly started in-progress buffer (`top_size = 0`), any
freeze-free sequence of append/pop/truncate/in-place-write operations the
code completes is simulated by the spec-side list semantics, and `freeze`
then returns the slice `(top_base, length)` whose bytes are exactly that
list, advancing `top_base` past them and resetting `top_size` to 0. -/
theorem freeze_roundtrip (s : St) (ops : List Op) (s' : St) (fs' : List Frozen)
    (h0 : s.alloc.top_size = 0)
    (hops : ∀ op ∈ ops, op ≠ Op.freeze)
    (h : run s [] ops = some (s', fs')) :
    specRun [] ops = some (bufContents s') ∧
    (freeze s').1 = (s'.alloc.top_base, s'.alloc.top_size) ∧
    (bufContents s').length = s'.alloc.top_size ∧
    (freeze s').2.alloc.top_base = s'.alloc.top_base + s'.alloc.top_size ∧
    (freeze s').2.alloc.top_size = 0 := by
  have hsim := specRun_sim ops s [] s' fs' hops h
  have he : bufContents s = [] := by
    unfold bufContents
    rw [h0]
    rfl
  rw [he] at hsim
  exact ⟨hsim, rfl, bufContents_length s', rfl, rfl⟩

/-- C2: starting from a fresh arena (`top_base = data_base`), at every
reachable state `data_size` equals the sum of the lengths of the frozen
buffers produced so far plus the current in-progress length, and immediately
after any further `freeze` it equals the sum of the frozen lengths alone. -/
theorem used_bytes_accounting (s : St) (ops : List Op) (s' : St) (fs' : List Frozen)
    (h0 : s.alloc.top_base = s.alloc.data_base)
    (h : run s [] ops = some (s', fs')) :
    data_size s'.alloc = (fs'.map fun f => f.bytes.length).sum + s'.alloc.top_size ∧
    (∀ s'' fs'', stepT s' fs' Op.freeze = some (s'', fs'') →
      data_size s''.alloc = (fs''.map fun f => f.bytes.length).sum) := by
  obtain ⟨hc, hl, hr⟩ := run_inv _ _ _ _ _ h (Inv_init s h0)
  have hsum := isChain_sum _ _ _ hc
  have hmap := sum_bytes_eq_sum_size fs' hl
  constructor
  · unfold data_size
    omega
  · intro s'' fs'' hstep
    simp only [stepT, Option.some.injEq, Prod.mk.injEq] at hstep
    obtain ⟨h1, h2⟩ := hstep
    subst h1; subst h2
    show data_size { s'.alloc with
        top_base := s'.alloc.top_base + s'.alloc.top_size, top_size := 0 } = _
    unfold data_size
    simp only [List.map_append, List.sum_append, List.map_cons, List.sum_cons,
      List.map_nil, List.sum_nil]
    rw [bufContents_length]
    omega

/-- C3: over any run from a fresh arena, the bytes of every frozen buffer
still read back, at the end of the run, exactly as they were at the moment
of the freeze — no later operation alters them. -/
theorem frozen_never_altered (s : St) (ops : List Op) (s' : St) (fs' : List Frozen)
    (h0 : s.alloc.top_base = s.alloc.data_base)
    (h : run s [] ops = some (s', fs')) :
    ∀ f ∈ fs', readBytes s'.mem f.base f.size = f.bytes :=
  (run_inv _ _ _ _ _ h (Inv_init s h0)).2.2

/-- C4: for `i ≤ j ≤ length`, `extend_from_within` succeeds, appends a
snapshot of the range `[i, j)` of the pre-call contents, extends the length
by `j - i`, and leaves the pre-existing bytes unchanged. -/
theorem extend_from_within_spec (s : St) (i j : Nat)
    (hij : i ≤ j) (hj : j ≤ s.alloc.top_size) :
    ∃ s', extend_from_within s i j = some s' ∧
      s'.alloc.top_base = s.alloc.top_base ∧
      s'.alloc.top_size = s.alloc.top_size + (j - i) ∧
      bufContents s' = bufContents s ++ ((bufContents s).drop i).take (j - i) ∧
      (bufContents s').take s.alloc.top_size = bufContents s := by
  have hL : (((bufContents s).drop i).take (j - i)).length = j - i := by
    rw [List.length_take, List.length_drop, bufContents_length]
    omega
  refine ⟨extend_from_slice s (((bufContents s).drop i).take (j - i)), ?_, rfl, ?_, ?_, ?_⟩
  · rw [extend_from_within, if_pos ⟨hij, hj⟩]
  · show s.alloc.top_size + (((bufContents s).drop i).take (j - i)).length = _
    rw [hL]
  · exact bufContents_extend_from_slice s _
  · rw [bufContents_extend_from_slice s _]
    exact List.take_left' (bufContents_length s)

/-- C7: `pop` on an empty buffer returns no value and leaves the state
unchanged; on a non-empty buffer it returns the last byte, shrinks the
length by exactly 1, and leaves the remaining bytes unchanged. -/
theorem pop_spec (s : St) :
    (s.alloc.top_size = 0 → pop s = (none, s)) ∧
    (s.alloc.top_size ≠ 0 →
      (pop s).1 = (bufContents s).getLast? ∧
      (pop s).2.alloc.top_size = s.alloc.top_size - 1 ∧
      bufContents (pop s).2 = (bufContents s).dropLast) := by
  constructor
  · intro h0
    simp [pop, h0]
  · intro h0
    refine ⟨?_, ?_, ?_⟩
    · simp only [pop, if_neg h0]
      exact (readBytes_getLast _ _ _ h0).symm
    · simp [pop, h0]
    · simp only [pop, if_neg h0]
      unfold bufContents
      simp only
      rw [readBytes_dropLast]

/-- C8: `truncate n` sets the length to `n` and keeps the length-`n`
byte prefix when `n ≤ length`, is the identity when `n > length`,
and never grows the buffer. -/
theorem truncate_spec (s : St) (n : Nat) :
    (n ≤ s.alloc.top_size →
      (truncate s n).alloc.top_size = n ∧
      bufContents (truncate s n) = (bufContents s).take n) ∧
    (s.alloc.top_size < n → truncate s n = s) ∧
    (truncate s n).alloc.top_size ≤ s.alloc.top_size := by
  refine ⟨?_, ?_, ?_⟩
  · intro hn
    constructor
    · simp [truncate, Nat.not_lt.mpr hn]
    · simp only [truncate, if_neg (by omega : ¬ n > s.alloc.top_size)]
      unfold bufContents
      simp only
      have e : s.alloc.top_size = n + (s.alloc.top_size - n) := by omega
      conv_rhs => rw [e]
      rw [readBytes_take]
  · intro hn
    simp [truncate, hn]
  · unfold truncate
    split
    · exact le_refl _
    · simpa using by omega

/-- C6: `dangerous` returns true exactly when `data_size` plus the fixed
bookkeeping overhead `size_of::<BumpAlloc>()` strictly exceeds half of the
reserved capacity. -/
theorem dangerous_iff (a : BumpAlloc) :
    dangerous a = true ↔ data_size a + bumpAllocStructSize > a.address_space / 2 := by
  simp [dangerous]

/-- A handle whose `BumpAlloc` struct is stored at address 8 while its
reservation base is 4096, as happens whenever the struct lives outside the
mapping (in the crate's own test it lives on the stack). -/
def strayRef : BumpAllocRef :=
  { ptr := 8,
    alloc := { address_space := 2 ^ 32, data_base := 4096, top_base := 4096, top_size := 0 } }

/-- C5 counterexample evidence: `Drop for BumpAllocRef` passes `self.ptr` —
the address at which the `BumpAlloc` struct itself is stored — to `munmap`,
not the reservation base `data_base`: the released range does not begin at
the reservation's base. -/
theorem drop_releases_struct_address :
    drop strayRef = (8, 2 ^ 32) ∧ (drop strayRef).1 ≠ strayRef.alloc.data_base :=
  ⟨rfl, by decide⟩

/-- C9: when the reservation call fails (`-1`) or returns the invalid null
address, arena creation ends in an unrecoverable error (the Rust code
panics), never a retryable value; on success the arena has capacity
`2 ^ bits`, `top_base` at the reservation base, and in-progress length 0. -/
theorem new_with_address_space_spec (bits : Nat) (res : Int) :
    ((res = -1 ∨ res = 0) → ∃ msg, new_with_address_space bits res = Except.error msg) ∧
    (res ≠ -1 → res ≠ 0 →
      new_with_address_space bits res =
        Except.ok { address_space := 2 ^ bits, data_base := res.toNat,
                    top_base := res.toNat, top_size := 0 }) := by
  constructor
  · rintro (h | h) <;> subst h
    · exact ⟨"not yet implemented", rfl⟩
    · exact ⟨"mmap returned nullptr", rfl⟩
  · intro h1 h2
    simp [new_with_address_space, h1, h2]

/-- C10: over any run from a fresh arena, the frozen slices tile the
committed region contiguously — the first begins at the arena base, each
subsequent one begins exactly where the previous ended, the last ends at
the current `top_base` — and distinct slices are pairwise disjoint. -/
theorem frozen_contiguous (s : St) (ops : List Op) (s' : St) (fs' : List Frozen)
    (h0 : s.alloc.top_base = s.alloc.data_base)
    (h : run s [] ops = some (s', fs')) :
    s'.alloc.data_base = s.alloc.data_base ∧
    isChain s.alloc.data_base fs' s'.alloc.top_base ∧
    fs'.Pairwise (fun f g => f.base + f.size ≤ g.base) := by
  have hdb := run_data_base _ _ _ _ _ h
  have hinv := run_inv _ _ _ _ _ h (Inv_init s h0)
  refine ⟨hdb, ?_, isChain_pairwise _ _ _ hinv.1⟩
  rw [← hdb]
  exact hinv.1

/-! Concrete runs used by the witnesses, following the crate's own test:
two episodes of append / append-from-within / in-place reverse / pop,
each ended by a freeze. -/

def initSt : St :=
  { alloc := { address_space := 2 ^ 32, data_base := 0, top_base := 0, top_size := 0 },
    mem := fun _ => 0 }

def ops1 : List Op :=
  [Op.extendFromSlice [1, 2, 3], Op.extendOne 4, Op.extendFromWithin 0 3,
   Op.writeAt 0 3, Op.writeAt 2 1, Op.writeAt 4 3, Op.writeAt 6 1, Op.pop]

def ops2 : List Op :=
  [Op.extendFromSlice [10, 20, 30], Op.extendOne 40, Op.extendFromWithin 0 3,
   Op.writeAt 0 30, Op.writeAt 2 10, Op.writeAt 4 30, Op.writeAt 6 10, Op.pop]

def demoOps : List Op := ops1 ++ [Op.freeze] ++ ops2 ++ [Op.freeze]

def demoFrozen : List Frozen :=
  [{ base := 0, size := 6, bytes := [3, 2, 1, 4, 3, 2] },
   { base := 6, size := 6, bytes := [30, 20, 10, 40, 30, 20] }]

def demoRun : St × List Frozen := (run initSt [] demoOps).get (by rfl)

def demoRun1 : St × List Frozen := (run initSt [] ops1).get (by rfl)

theorem demoRun_eq : run initSt [] demoOps = some (demoRun.1, demoFrozen) := rfl

theorem demoRun1_eq : run initSt [] ops1 = some (demoRun1.1, demoRun1.2) := rfl

def demoSt : St := extend_from_slice initSt [1, 2, 3, 4]

/-- Witness for C1 at the crate's first test episode. -/
theorem freeze_roundtrip_witness :
    initSt.alloc.top_size = 0 ∧ (∀ op ∈ ops1, op ≠ Op.freeze) ∧
    run initSt [] ops1 = some (demoRun1.1, demoRun1.2) ∧
    (specRun [] ops1 = some (bufContents demoRun1.1) ∧
      (freeze demoRun1.1).1 = (demoRun1.1.alloc.top_base, demoRun1.1.alloc.top_size) ∧
      (bufContents demoRun1.1).length = demoRun1.1.alloc.top_size ∧
      (freeze demoRun1.1).2.alloc.top_base
        = demoRun1.1.alloc.top_base + demoRun1.1.alloc.top_size ∧
      (freeze demoRun1.1).2.alloc.top_size = 0) ∧
    specRun [] ops1 = some [3, 2, 1, 4, 3, 2] :=
  ⟨rfl, by decide, demoRun1_eq,
   freeze_roundtrip initSt ops1 demoRun1.1 demoRun1.2 rfl (by decide) demoRun1_eq, rfl⟩

/-- Witness for C2 at the crate's test run; the total is 6 + 6 = 12 bytes. -/
theorem used_bytes_accounting_witness :
    initSt.alloc.top_base = initSt.alloc.data_base ∧
    run initSt [] demoOps = some (demoRun.1, demoFrozen) ∧
    (data_size demoRun.1.alloc
        = (demoFrozen.map fun f => f.bytes.length).sum + demoRun.1.alloc.top_size ∧
      ∀ s'' fs'', stepT demoRun.1 demoFrozen Op.freeze = some (s'', fs'') →
        data_size s''.alloc = (fs''.map fun f => f.bytes.length).sum) ∧
    data_size demoRun.1.alloc = 12 :=
  ⟨rfl, demoRun_eq,
   used_bytes_accounting initSt demoOps demoRun.1 demoFrozen rfl demoRun_eq, rfl⟩

/-- Witness for C3 at the crate's test run. -/
theorem frozen_never_altered_witness :
    initSt.alloc.top_base = initSt.alloc.data_base ∧
    run initSt [] demoOps = some (demoRun.1, demoFrozen) ∧
    ∀ f ∈ demoFrozen, readBytes demoRun.1.mem f.base f.size = f.bytes :=
  ⟨rfl, demoRun_eq,
   frozen_never_altered initSt demoOps demoRun.1 demoFrozen rfl demoRun_eq⟩

/-- Witness for C4 on a buffer holding `[1, 2, 3, 4]`, range `[0, 3)`. -/
theorem extend_from_within_spec_witness :
    (0 : Nat) ≤ 3 ∧ 3 ≤ demoSt.alloc.top_size ∧
    (∃ s', extend_from_within demoSt 0 3 = some s' ∧
      s'.alloc.top_base = demoSt.alloc.top_base ∧
      s'.alloc.top_size = demoSt.alloc.top_size + (3 - 0) ∧
      bufContents s' = bufContents demoSt ++ ((bufContents demoSt).drop 0).take (3 - 0) ∧
      (bufContents s').take demoSt.alloc.top_size = bufContents demoSt) :=
  ⟨by decide, by decide, extend_from_within_spec demoSt 0 3 (by decide) (by decide)⟩

/-- Witness for C7 on a non-empty buffer. -/
theorem pop_spec_witness :
    demoSt.alloc.top_size ≠ 0 ∧
    ((pop demoSt).1 = (bufContents demoSt).getLast? ∧
      (pop demoSt).2.alloc.top_size = demoSt.alloc.top_size - 1 ∧
      bufContents (pop demoSt).2 = (bufContents demoSt).dropLast) :=
  ⟨by decide, (pop_spec demoSt).2 (by decide)⟩

/-- Witness for C8, truncating a length-4 buffer to 2. -/
theorem truncate_spec_witness :
    2 ≤ demoSt.alloc.top_size ∧
    ((truncate demoSt 2).alloc.top_size = 2 ∧
      bufContents (truncate demoSt 2) = (bufContents demoSt).take 2) :=
  ⟨by decide, (truncate_spec demoSt 2).1 (by decide)⟩

/-- Witness for C9 at a failed reservation (`-1`) and a successful one (`4096`). -/
theorem new_with_address_space_spec_witness :
    ((-1 : Int) = -1 ∨ (-1 : Int) = 0) ∧
    (∃ msg, new_with_address_space 32 (-1) = Except.error msg) ∧
    ((4096 : Int) ≠ -1 ∧ (4096 : Int) ≠ 0) ∧
    new_with_address_space 32 4096 =
      Except.ok { address_space := 2 ^ 32, data_base := 4096,
                  top_base := 4096, top_size := 0 } :=
  ⟨Or.inl rfl, (new_with_address_space_spec 32 (-1)).1 (Or.inl rfl),
   ⟨by decide, by decide⟩,
   (new_with_address_space_spec 32 4096).2 (by decide) (by decide)⟩

/-- Witness for C10 at the crate's test run. -/
theorem frozen_contiguous_witness :
    initSt.alloc.top_base = initSt.alloc.data_base ∧
    run initSt [] demoOps = some (demoRun.1, demoFrozen) ∧
    (demoRun.1.alloc.data_base = initSt.alloc.data_base ∧
      isChain initSt.alloc.data_base demoFrozen demoRun.1.alloc.top_base ∧
      demoFrozen.Pairwise (fun f g => f.base + f.size ≤ g.base)) :=
  ⟨rfl, demoRun_eq,
   frozen_contiguous initSt demoOps demoRun.1 demoFrozen rfl demoRun_eq⟩

end Freeze
